import Mathlib

/-!
Verification of the crossword constraint-satisfaction solver
(`src/week3/crossword/generate.py`, class `CrosswordCreator`).

The solver state is a crossword (grid model) together with a mutable map
from vars to candidate-word lists (the domain store).  The Python
code mutates `self.domains` in place; here every operation takes the
domain map as an argument and returns the updated map, which is the same
state threaded explicitly.  Python sets are modelled as duplicate-free
lists whose order stands for the (unspecified) iteration order of the
set; Python dicts keyed by vars are modelled either as functions
out of `Var` (the domain store) or as association lists (assignments).
-/

/-- Model of the `Variable` class: starting cell, orientation and length.
Structural equality, usable as a map key, mirroring the value semantics
required of `Variable`. -/
structure Var where
  row : Nat
  col : Nat
  down : Bool
  length : Nat
deriving DecidableEq

/-- Modelled from the spec: the `Crossword` class lives in `crossword.py`,
which is not part of the supplied sources; only `generate.py` is.  Per the
spec, a crossword carries the derived set of vars, the global word
list, and an overlaps mapping taking every ordered pair of distinct
vars to `none` (no shared cell) or `some (k1, k2)`, meaning character
`k1` of the first word must equal character `k2` of the second.  The list
order of `vars` stands for the iteration order of the Python
set/dict. -/
structure Crossword where
  vars : List Var
  words : List String
  overlaps : Var → Var → Option (Nat × Nat)

/-- The domain store: each variable maps to its list of candidate words. -/
def DomainMap : Type := Var → List String

/-- Character of `w` at index `k` (Python `w[k]`; all uses in the program
keep `k` within bounds, the default is never read on those paths). -/
def charAt (w : String) (k : Nat) : Char :=
  w.data.getD k (Char.ofNat 0)

/-- Modelled from the spec: `Crossword.neighbors(var)` (defined in the
missing `crossword.py`) returns the vars sharing a cell with `var`,
i.e. the distinct vars with a defined overlap. -/
def neighbors (cw : Crossword) (x : Var) : List Var :=
  cw.vars.filter (fun y => y != x && (cw.overlaps x y).isSome)

/-- Domain seeding done by `CrosswordCreator.__init__`: every variable
starts with a copy of the full word list. -/
def initDomains (cw : Crossword) : DomainMap :=
  fun _ => cw.words

/-- `enforce_node_consistency`: for every variable, remove from its domain
every word of the word list whose length differs from the variable length.
On the seeded domains (where the call happens, the domain being a copy of
the word list) this is exactly a filter by length. -/
def enforce_node_consistency (cw : Crossword) (d : DomainMap) : DomainMap :=
  fun v => if v ∈ cw.vars then (d v).filter (fun w => w.length == v.length) else d v

/-- `revise(x, y)`: if the pair has no overlap, return `False` and leave the
domains alone.  Otherwise drop from the domain of `x` every word with no
matching partner in the domain of `y`, and report whether anything was
dropped.  (The Python loop iterates over a copy of the domain of `x` and
removes from the live set; the domain of `y` is untouched throughout, so
the net effect is this filter.) -/
def revise (cw : Crossword) (d : DomainMap) (x y : Var) : DomainMap × Bool :=
  match cw.overlaps x y with
  | none => (d, false)
  | some kk =>
      let ok : String → Bool := fun w => (d y).any (fun w2 => charAt w2 kk.2 == charAt w kk.1)
      (Function.update d x ((d x).filter ok), !((d x).all ok))

/-- Initial worklist built by `ac3` when called with `arcs=None`: every
ordered pair of distinct vars, in dict iteration order. -/
def initArcs (cw : Crossword) : List (Var × Var) :=
  cw.vars.foldr
    (fun x acc => ((cw.vars.filter (fun y => y != x)).map (fun y => (x, y))) ++ acc) []

/-- Total number of candidate words over all vars; strictly decreases
on every revision that changes a domain, which bounds how many changing
revisions an `ac3` run can perform. -/
def domSum (cw : Crossword) (d : DomainMap) : Nat :=
  (cw.vars.map (fun v => (d v).length)).sum

/-- One draining pass of the `ac3` `while` loop: pop arcs (the list here is
the Python list reversed, so the Python `pop()` from the back is the head)
and revise, until a revision changes a domain.  An empty revised domain
returns `some false` (the Python `return False`); running out of arcs
returns `none` (the Python function falls through, returning `None`).  On
a change that leaves the domain inhabited, the arcs `(x, neighbor)` are
pushed for every neighbor of `x` — this is what line 173 of the source
does — and control goes to `next`, the continuation supplied by `ac3Aux`
below. -/
def ac3Drain (cw : Crossword)
    (next : List (Var × Var) → DomainMap → DomainMap × Option Bool) :
    List (Var × Var) → DomainMap → DomainMap × Option Bool
  | [], d => (d, none)
  | arc :: rest, d =>
      if (revise cw d arc.1 arc.2).2 then
        if ((revise cw d arc.1 arc.2).1 arc.1).isEmpty then
          ((revise cw d arc.1 arc.2).1, some false)
        else
          next ((((neighbors cw arc.1).map (fun n => (arc.1, n))).reverse) ++ rest)
            (revise cw d arc.1 arc.2).1
      else ac3Drain cw next rest d

/-- The `ac3` worklist loop.  `fuel` only ticks down when a revision
changes a domain; since each such revision strictly shrinks `domSum`, the
fuel supplied by `ac3` below can never run out.  The exhaustion branch is
marked by `some true`, a value the Python function cannot produce (its
body has no `return True`); a lemma below proves the marker unreachable
for the fuel `ac3` supplies. -/
def ac3Aux (cw : Crossword) : Nat → List (Var × Var) → DomainMap → DomainMap × Option Bool
  | 0, queue, d => if queue.isEmpty then (d, none) else (d, some true)
  | f + 1, queue, d => ac3Drain cw (ac3Aux cw f) queue d

/-- `ac3()` as `solve` calls it (default arcs): run the worklist starting
from all ordered pairs of distinct vars.  The returned pair is the
final domain store plus the Python return value (`some false` for
`False`, `none` for the implicit `None`). -/
def ac3 (cw : Crossword) (d : DomainMap) : DomainMap × Option Bool :=
  ac3Aux cw (domSum cw d + 1) (initArcs cw).reverse d

/-- `assignment_complete`: every crossword variable is a key of the
assignment and its word is truthy (a non-empty string). -/
def assignment_complete (cw : Crossword) (a : List (Var × String)) : Bool :=
  cw.vars.all (fun v =>
    match a.lookup v with
    | some w => !(w == "")
    | none => false)

/-- Loop body of `consistent`: walk the assignment items, carrying the
`all_words` accumulator used for the duplicate check; for each item check
the length constraint and every assigned neighbor with a defined overlap. -/
def consistentAux (cw : Crossword) (a : List (Var × String)) :
    List (Var × String) → List String → Bool
  | [], _ => true
  | (v, w) :: rest, seen =>
      if seen.contains w then false
      else if !(v.length == w.length) then false
      else if (neighbors cw v).all (fun n =>
          match a.lookup n with
          | none => true
          | some nw =>
              match cw.overlaps v n with
              | none => true
              | some kk => charAt nw kk.2 == charAt w kk.1) then
        consistentAux cw a rest (w :: seen)
      else false

/-- `consistent(assignment)`: no duplicate words, right lengths, and
agreeing overlap characters between assigned neighbors. -/
def consistent (cw : Crossword) (a : List (Var × String)) : Bool :=
  consistentAux cw a a []

/-- `overlap_count(char, spot, var)`: how many words fixing this character
at this spot would remove from the domain of `var`. -/
def overlap_count (d : DomainMap) (c : Char) (spot : Nat) (v : Var) : Nat :=
  (d v).length - ((d v).filter (fun w => charAt w spot == c)).length

/-- The `sort_function` closure inside `order_domain_values`: total count
of removed neighbor candidates, summed over the captured (unassigned)
neighbor list.  The dead `none` branch mirrors that the overlap of a
neighbor is always defined. -/
def lcvKey (cw : Crossword) (d : DomainMap) (x : Var) (nbrs : List Var) (w : String) : Nat :=
  nbrs.foldl
    (fun acc n =>
      match cw.overlaps x n with
      | some kk => acc + overlap_count d (charAt w kk.1) kk.2 n
      | none => acc) 0

/-- `order_domain_values(var, assignment)`: with no unassigned neighbor the
domain is returned as is; otherwise the domain sorted ascending by
`lcvKey`.  Python `sorted` is a stable sort, and a stable sort by a key is
extensionally unique, so the stable `List.insertionSort` computes the same
list. -/
def order_domain_values (cw : Crossword) (d : DomainMap) (x : Var)
    (a : List (Var × String)) : List String :=
  if ((neighbors cw x).filter (fun n => (a.lookup n).isNone)).isEmpty then d x
  else
    List.insertionSort (fun w1 w2 =>
      lcvKey cw d x ((neighbors cw x).filter (fun n => (a.lookup n).isNone)) w1 ≤
      lcvKey cw d x ((neighbors cw x).filter (fun n => (a.lookup n).isNone)) w2) (d x)

/-- `select_unassigned_variable(assignment)`, verbatim including its
trackers: `min_remaining_values` starts at `1e6` and `current_highest_degree`
at `0`, and the loop never updates either (the state returned on a hit
keeps both fields).  Python compares the int domain size with the float
`1e6` exactly, which the `Nat` literal reproduces for any domain smaller
than a million words. -/
def select_unassigned_variable (cw : Crossword) (d : DomainMap)
    (a : List (Var × String)) : Option Var :=
  (cw.vars.foldl
    (fun st v =>
      if (a.lookup v).isNone then
        if (d v).length < st.1 ∨ ((d v).length = st.1 ∧ (neighbors cw v).length > st.2.1) then
          (st.1, st.2.1, some v)
        else st
      else st)
    (1000000, 0, none)).2.2

/-- The `for word in ordered_word_list` loop of `backtrack`: bind the word,
keep it only if the extended assignment is consistent, recurse through
`recur` (the (fuel-smaller) `backtrack`), and accept a returned result
only after re-checking its consistency, exactly as lines 283-291 do.  The
Python dict mutation nets out to this functional form: a binding added
before the recursive call is deleted again on every path that continues
the loop. -/
def tryWords (cw : Crossword)
    (recur : List (Var × String) → Option (List (Var × String)))
    (v : Var) (a : List (Var × String)) : List String → Option (List (Var × String))
  | [] => none
  | w :: rest =>
      if consistent cw ((v, w) :: a) then
        match recur ((v, w) :: a) with
        | some r => if consistent cw r then some r else tryWords cw recur v a rest
        | none => tryWords cw recur v a rest
      else tryWords cw recur v a rest

/-- `backtrack(assignment)`.  The fuel is structural bookkeeping only: each
recursive call binds one previously unassigned variable, so the fuel
`solve` supplies cannot run out.  The `none => none` arm models the branch
where no unassigned variable exists although the assignment is incomplete;
the Python code would crash there (it would call `order_domain_values`
with `None`), and the branch is unreachable from `solve`. -/
def backtrack (cw : Crossword) (d : DomainMap) :
    Nat → List (Var × String) → Option (List (Var × String))
  | 0, _ => none
  | fuel + 1, a =>
      if assignment_complete cw a then some a
      else
        match select_unassigned_variable cw d a with
        | none => none
        | some v => tryWords cw (backtrack cw d fuel) v a (order_domain_values cw d v a)

/-- `solve()`: seed the domains, enforce node consistency, run `ac3`
ignoring its return value (only the mutated domain store is used), and
backtrack from the empty assignment. -/
def solve (cw : Crossword) : Option (List (Var × String)) :=
  backtrack cw (ac3 cw (enforce_node_consistency cw (initDomains cw))).1
    (cw.vars.length + 1) []

/-- Decidable check of the arc-consistency fixed point the spec promises
after a successful `ac3`: every word of every domain has a compatible
partner across every defined overlap. -/
def arcConsistentB (cw : Crossword) (d : DomainMap) : Bool :=
  cw.vars.all fun x => cw.vars.all fun y =>
    if x == y then true
    else
      match cw.overlaps x y with
      | none => true
      | some kk => (d x).all fun w => (d y).any fun w2 => charAt w kk.1 == charAt w2 kk.2

/-- Total eliminated-candidate count stated the way the spec words it: for
each unassigned neighbor sharing an overlap with `x`, the number of its
current candidates that disagree with `w` at the overlap, summed over the
neighbors.  Used to compare `order_domain_values` with the
least-constraining-value description. -/
def eliminatedTotal (cw : Crossword) (d : DomainMap) (x : Var)
    (a : List (Var × String)) (w : String) : Nat :=
  ((((neighbors cw x).filter (fun n => (a.lookup n).isNone)).map (fun n =>
    match cw.overlaps x n with
    | some kk => ((d n).filter (fun w2 => !(charAt w2 kk.2 == charAt w kk.1))).length
    | none => 0))).sum

/-! Concrete instances used by the counterexamples and witnesses.  The
crossword `cwEx` is realizable as a 2x2 grid: `vA` across at (0,0) covering
cells (0,0),(0,1); `vB` down at (0,0) covering (0,0),(1,0); `vC` down at
(0,1) covering (0,1),(1,1).  So `vA` and `vB` overlap at their indices
(0,0), `vA` and `vC` at (1,0), and `vB`,`vC` share no cell; the overlaps
mapping below is the symmetric, geometry-derived mapping the spec
requires. -/

def vA : Var := ⟨0, 0, false, 2⟩

def vB : Var := ⟨0, 0, true, 2⟩

def vC : Var := ⟨0, 1, true, 2⟩

def cwEx : Crossword where
  vars := [vA, vB, vC]
  words := ["xy", "pq", "pz", "yz", "qz"]
  overlaps := fun x y =>
    if x = vA ∧ y = vB then some (0, 0)
    else if x = vB ∧ y = vA then some (0, 0)
    else if x = vA ∧ y = vC then some (1, 0)
    else if x = vC ∧ y = vA then some (0, 1)
    else none

/-- Domain store for `cwEx` after node consistency (all words have length
2, so it is also what seeding plus `enforce_node_consistency` produces on
these candidate lists). -/
def dEx : DomainMap := fun v =>
  if v = vA then ["xy", "pq"] else if v = vB then ["pz"]
  else if v = vC then ["yz", "qz"] else []

/-- Two independent slots with no overlap, for exercising
`select_unassigned_variable`: `vA` has one candidate left, `vB` two. -/
def cwSel : Crossword := ⟨[vA, vB], ["aa", "bb", "cc"], fun _ _ => none⟩

def dSel : DomainMap := fun v => if v = vA then ["aa"] else ["bb", "cc"]

/-- A crossword with no variables at all (e.g. a fully blocked grid). -/
def cwZero : Crossword := ⟨[], ["ab"], fun _ _ => none⟩

/-- One slot of length 2 but a dictionary whose only word has length 3:
node consistency empties the domain. -/
def cwWrong : Crossword := ⟨[vA], ["abc"], fun _ _ => none⟩

/-- One slot of length 2 and one fitting word: a solvable instance. -/
def cwOne : Crossword := ⟨[vA], ["ab"], fun _ _ => none⟩

/-- Claim C1: after a successful `ac3` the domains are NOT always the
arc-consistent fixed point.  On `cwEx`/`dEx` the run returns success
(falls through, `none`) with final domains `vA = ["pq"]`, `vB = ["pz"]`,
`vC = ["yz", "qz"]`, yet the word `"yz"` of `vC` has no partner in the
domain of `vA` across the overlap `(0, 1)`: the code re-enqueues the arcs
`(x, neighbor)` after shrinking the domain of `x` (generate.py line 173),
instead of the arcs `(neighbor, x)` into `x` that the shrink can have
invalidated, so the arc `(vC, vA)` is never re-checked. -/
theorem ac3_missing_arc_consistency :
    (ac3 cwEx dEx).2 = none ∧
    (ac3 cwEx dEx).1 vA = ["pq"] ∧
    (ac3 cwEx dEx).1 vC = ["yz", "qz"] ∧
    arcConsistentB cwEx (ac3 cwEx dEx).1 = false := by decide

/-- Claim C4: `ac3` is NOT idempotent.  On `cwEx`/`dEx` the first run ends
with `vC = ["yz", "qz"]` (see `ac3_missing_arc_consistency`); a second run
starts from the full arc worklist again, revises the never-re-checked arc
`(vC, vA)` and removes `"yz"`, so the second run does change a domain. -/
theorem ac3_not_idempotent :
    (ac3 cwEx dEx).2 = none ∧
    (ac3 cwEx ((ac3 cwEx dEx).1)).1 vC ≠ (ac3 cwEx dEx).1 vC := by decide

/-- Claim C2: `select_unassigned_variable` does NOT implement the
minimum-remaining-values choice its docstring and the spec describe.  The
loop never updates `min_remaining_values` (stuck at `1e6`) or
`current_highest_degree` (stuck at `0`), so every unassigned variable
passes the comparison and the function returns the last one iterated.  On
`cwSel`/`dSel` with the empty assignment it returns `vB`, whose domain has
2 words, although the unassigned `vA` has only 1. -/
theorem select_unassigned_variable_ignores_mrv :
    select_unassigned_variable cwSel dSel [] = some vB ∧
    vA ∈ cwSel.vars ∧ (dSel vA).length = 1 ∧ (dSel vB).length = 2 := by decide

/-- Claim C5: for distinct `x`, `y`, `revise` with no overlap returns
`False` and leaves the domain store untouched; with overlap `(kx, ky)`
(and overlap indices within the word lengths, as the program guarantees),
a word stays in the domain of `x` exactly when some word of the domain of
`y` matches it at the overlap, every other domain (in particular that of
`y`) is unchanged, and the returned flag is `True` iff some word of the
domain of `x` had no match, i.e. iff at least one word was removed. -/
theorem revise_spec (cw : Crossword) (d : DomainMap) (x y : Var) (hxy : x ≠ y) :
    (cw.overlaps x y = none → revise cw d x y = (d, false)) ∧
    (∀ kk : Nat × Nat, cw.overlaps x y = some kk →
      (∀ w ∈ d x, kk.1 < w.length) → (∀ w2 ∈ d y, kk.2 < w2.length) →
      ((∀ w, w ∈ (revise cw d x y).1 x ↔
          w ∈ d x ∧ ∃ w2 ∈ d y, charAt w2 kk.2 = charAt w kk.1) ∧
       (∀ v, v ≠ x → (revise cw d x y).1 v = d v) ∧
       ((revise cw d x y).2 = true ↔
          ∃ w ∈ d x, ∀ w2 ∈ d y, charAt w2 kk.2 ≠ charAt w kk.1))) := by
  constructor
  · intro h
    simp [revise, h]
  · intro kk hov _ _
    refine ⟨?_, ?_, ?_⟩
    · intro w
      simp [revise, hov, Function.update_same, List.mem_filter, List.any_eq_true, beq_iff_eq]
    · intro v hv
      simp [revise, hov, Function.update_noteq hv]
    · simp [revise, hov, Bool.not_eq_true', List.all_eq_false, List.any_eq_true, beq_iff_eq]

/-- Witness for `revise_spec` at `cwEx`, `dEx`, `x = vA`, `y = vB`,
overlap `(0, 0)`. -/
theorem revise_spec_witness :
    (revise cwEx dEx vA vB).2 = true ↔
      ∃ w ∈ dEx vA, ∀ w2 ∈ dEx vB, charAt w2 0 ≠ charAt w 0 :=
  ((revise_spec cwEx dEx vA vB (by decide)).2 (0, 0) rfl (by decide) (by decide)).2.2

/-- Claim C6: on the freshly seeded domains (each a copy of the word
list), `enforce_node_consistency` leaves for each variable exactly the
words of the right length: every survivor has the variable length and no
word of the right length is removed.  The Lean function is total — the
removal of each wrong-length word cannot fail, because the seeded domain
contains every word of the word list — which models that the Python
`set.remove` calls never raise on this input. -/
theorem enforce_node_consistency_spec (cw : Crossword) (v : Var) (hv : v ∈ cw.vars) :
    enforce_node_consistency cw (initDomains cw) v
        = cw.words.filter (fun w => w.length == v.length) ∧
    (∀ w ∈ enforce_node_consistency cw (initDomains cw) v, w.length = v.length) ∧
    (∀ w ∈ cw.words, w.length = v.length →
      w ∈ enforce_node_consistency cw (initDomains cw) v) := by
  have h1 : enforce_node_consistency cw (initDomains cw) v
      = cw.words.filter (fun w => w.length == v.length) := by
    simp [enforce_node_consistency, initDomains, hv]
  refine ⟨h1, ?_, ?_⟩
  · intro w hw
    rw [h1] at hw
    exact beq_iff_eq.mp (List.mem_filter.mp hw).2
  · intro w hw hlen
    rw [h1]
    exact List.mem_filter.mpr ⟨hw, beq_iff_eq.mpr hlen⟩

/-- Witness for `enforce_node_consistency_spec` at `cwEx`, `vA`. -/
theorem enforce_node_consistency_spec_witness :
    enforce_node_consistency cwEx (initDomains cwEx) vA
      = cwEx.words.filter (fun w => w.length == vA.length) :=
  (enforce_node_consistency_spec cwEx vA (by decide)).1

/-- Any word surviving `revise` in any domain was already there: the only
modified domain is filtered, the rest are untouched. -/
lemma revise_subset (cw : Crossword) (d : DomainMap) (x y v : Var) (w : String)
    (h : w ∈ (revise cw d x y).1 v) : w ∈ d v := by
  cases hov : cw.overlaps x y with
  | none => simpa [revise, hov] using h
  | some kk =>
      simp only [revise, hov] at h
      by_cases hvx : v = x
      · subst hvx
        rw [Function.update_same] at h
        exact (List.mem_filter.mp h).1
      · rwa [Function.update_noteq hvx] at h

/-- Draining the worklist only ever shrinks domains, provided the
continuation does. -/
lemma ac3Drain_subset (cw : Crossword)
    (next : List (Var × Var) → DomainMap → DomainMap × Option Bool)
    (hnext : ∀ q d2 v w, w ∈ (next q d2).1 v → w ∈ d2 v) :
    ∀ (queue : List (Var × Var)) (d : DomainMap) (v : Var) (w : String),
      w ∈ (ac3Drain cw next queue d).1 v → w ∈ d v := by
  intro queue
  induction queue with
  | nil => intro d v w h; simpa [ac3Drain] using h
  | cons arc rest ih =>
      intro d v w h
      rw [ac3Drain] at h
      split at h
      · split at h
        · exact revise_subset cw d arc.1 arc.2 v w h
        · exact revise_subset cw d arc.1 arc.2 v w (hnext _ _ v w h)
      · exact ih d v w h

/-- The whole `ac3` worklist loop only ever shrinks domains. -/
lemma ac3Aux_subset (cw : Crossword) :
    ∀ (f : Nat) (queue : List (Var × Var)) (d : DomainMap) (v : Var) (w : String),
      w ∈ (ac3Aux cw f queue d).1 v → w ∈ d v := by
  intro f
  induction f with
  | zero =>
      intro queue d v w h
      rw [ac3Aux] at h
      split at h <;> exact h
  | succ f ih =>
      intro queue d v w h
      rw [ac3Aux] at h
      exact ac3Drain_subset cw (ac3Aux cw f) (fun q d2 v2 w2 => ih q d2 v2 w2) queue d v w h

/-- Claim C9: domains only ever shrink.  After `enforce_node_consistency`,
after any single `revise`, and after any run of the `ac3` worklist loop
(hence after each of its steps, each being such a run), every domain is a
subset of what it was, so no operation ever adds a word and no domain
grows.  `backtrack` is covered by construction: the source never writes
`self.domains` during search (`order_domain_values` sorts a copy), which
is why the embedded `backtrack` takes the domain store as a read-only
argument. -/
theorem domains_never_grow (cw : Crossword) (d : DomainMap) (v : Var) :
    (∀ w, w ∈ enforce_node_consistency cw d v → w ∈ d v) ∧
    (∀ x y w, w ∈ (revise cw d x y).1 v → w ∈ d v) ∧
    (∀ fuel queue w, w ∈ (ac3Aux cw fuel queue d).1 v → w ∈ d v) := by
  refine ⟨?_, ?_, ?_⟩
  · intro w hw
    unfold enforce_node_consistency at hw
    split at hw
    · exact (List.mem_filter.mp hw).1
    · exact hw
  · exact fun x y w => revise_subset cw d x y v w
  · exact fun fuel queue w => ac3Aux_subset cw fuel queue d v w

/-- Witness for `domains_never_grow` at `cwEx`, `dEx`, `vA`. -/
theorem domains_never_grow_witness : "xy" ∈ dEx vA :=
  (domains_never_grow cwEx dEx vA).1 "xy" (by decide)

/-- A revision that reports a change strictly shrank the revised domain. -/
lemma revise_change_lt (cw : Crossword) (d : DomainMap) (x y : Var)
    (h : (revise cw d x y).2 = true) : ((revise cw d x y).1 x).length < (d x).length := by
  cases hov : cw.overlaps x y with
  | none => simp [revise, hov] at h
  | some kk =>
      simp only [revise, hov, Bool.not_eq_true'] at h ⊢
      rw [Function.update_same]
      exact List.length_filter_lt_length_iff_exists.mpr (List.all_eq_false.mp h)

lemma revise_length_le (cw : Crossword) (d : DomainMap) (x y v : Var) :
    ((revise cw d x y).1 v).length ≤ (d v).length := by
  cases hov : cw.overlaps x y with
  | none => simp [revise, hov]
  | some kk =>
      simp only [revise, hov]
      by_cases hvx : v = x
      · subst hvx
        rw [Function.update_same]
        exact List.length_filter_le _ _
      · rw [Function.update_noteq hvx]

/-- A changing revision of a crossword variable strictly shrinks the total
candidate count, the measure bounding the number of changing revisions. -/
lemma domSum_revise_lt (cw : Crossword) (d : DomainMap) (x y : Var)
    (hx : x ∈ cw.vars) (h : (revise cw d x y).2 = true) :
    domSum cw (revise cw d x y).1 < domSum cw d := by
  unfold domSum
  exact List.sum_lt_sum _ _ (fun v _ => revise_length_le cw d x y v)
    ⟨x, hx, revise_change_lt cw d x y h⟩

/-- Every arc of the default worklist starts at a crossword variable. -/
lemma initArcs_fst_mem (cw : Crossword) : ∀ p ∈ initArcs cw, p.1 ∈ cw.vars := by
  have key : ∀ l : List Var, (∀ v ∈ l, v ∈ cw.vars) →
      ∀ p ∈ l.foldr (fun x acc =>
        ((cw.vars.filter (fun y => y != x)).map (fun y => (x, y))) ++ acc) ([] : List (Var × Var)),
      p.1 ∈ cw.vars := by
    intro l
    induction l with
    | nil => intro _ p hp; simp at hp
    | cons a l ih =>
        intro hsub p hp
        rw [List.foldr_cons, List.mem_append] at hp
        cases hp with
        | inl hp =>
            rcases List.mem_map.mp hp with ⟨y, _, rfl⟩
            exact hsub a (List.mem_cons_self a l)
        | inr hp => exact ih (fun v hv => hsub v (List.mem_cons_of_mem a hv)) p hp
  exact key cw.vars (fun v hv => hv)

/-- With enough fuel left for the remaining candidate count, draining the
worklist never reaches the fuel-exhaustion marker. -/
lemma ac3Drain_ne_true (cw : Crossword)
    (next : List (Var × Var) → DomainMap → DomainMap × Option Bool) (N : Nat)
    (hnext : ∀ q d2, (∀ p ∈ q, p.1 ∈ cw.vars) → domSum cw d2 < N →
      (next q d2).2 ≠ some true) :
    ∀ queue d, (∀ p ∈ queue, p.1 ∈ cw.vars) → domSum cw d ≤ N →
      (ac3Drain cw next queue d).2 ≠ some true := by
  intro queue
  induction queue with
  | nil => intro d _ _; simp [ac3Drain]
  | cons arc rest ih =>
      intro d hq hd
      rw [ac3Drain]
      by_cases h1 : (revise cw d arc.1 arc.2).2
      · rw [if_pos h1]
        by_cases h2 : ((revise cw d arc.1 arc.2).1 arc.1).isEmpty
        · rw [if_pos h2]
          simp
        · rw [if_neg h2]
          apply hnext
          · intro p hp
            rw [List.mem_append] at hp
            cases hp with
            | inl hp =>
                rw [List.mem_reverse] at hp
                rcases List.mem_map.mp hp with ⟨n, _, rfl⟩
                exact hq arc (List.mem_cons_self _ _)
            | inr hp => exact hq p (List.mem_cons_of_mem _ hp)
          · exact Nat.lt_of_lt_of_le
              (domSum_revise_lt cw d arc.1 arc.2 (hq arc (List.mem_cons_self _ _)) h1) hd
      · rw [if_neg h1]
        exact ih d (fun p hp => hq p (List.mem_cons_of_mem _ hp)) hd

/-- The worklist loop never reaches the fuel-exhaustion marker when the
fuel exceeds the total candidate count: the Python loop terminates. -/
lemma ac3Aux_ne_true (cw : Crossword) :
    ∀ (f : Nat) (queue : List (Var × Var)) (d : DomainMap),
      (∀ p ∈ queue, p.1 ∈ cw.vars) → domSum cw d < f →
      (ac3Aux cw f queue d).2 ≠ some true := by
  intro f
  induction f with
  | zero => intro queue d _ hd; exact absurd hd (Nat.not_lt_zero _)
  | succ f ih =>
      intro queue d hq hd
      rw [ac3Aux]
      exact ac3Drain_ne_true cw (ac3Aux cw f) f
        (fun q d2 hq2 hd2 => ih q d2 hq2 hd2) queue d hq (Nat.lt_succ_iff.mp hd)

/-- A `False` return from the drained worklist exhibits an emptied domain. -/
lemma ac3Drain_false_empty (cw : Crossword)
    (next : List (Var × Var) → DomainMap → DomainMap × Option Bool)
    (hnext : ∀ q d2, (next q d2).2 = some false → ∃ v, (next q d2).1 v = []) :
    ∀ queue d, (ac3Drain cw next queue d).2 = some false →
      ∃ v, (ac3Drain cw next queue d).1 v = [] := by
  intro queue
  induction queue with
  | nil => intro d h; simp [ac3Drain] at h
  | cons arc rest ih =>
      intro d h
      rw [ac3Drain] at h ⊢
      by_cases h1 : (revise cw d arc.1 arc.2).2
      · rw [if_pos h1] at h ⊢
        by_cases h2 : ((revise cw d arc.1 arc.2).1 arc.1).isEmpty
        · rw [if_pos h2] at h ⊢
          exact ⟨arc.1, List.isEmpty_iff.mp h2⟩
        · rw [if_neg h2] at h ⊢
          exact hnext _ _ h
      · rw [if_neg h1] at h ⊢
        exact ih d h

lemma ac3Aux_false_empty (cw : Crossword) :
    ∀ (f : Nat) (queue : List (Var × Var)) (d : DomainMap),
      (ac3Aux cw f queue d).2 = some false →
      ∃ v, (ac3Aux cw f queue d).1 v = [] := by
  intro f
  induction f with
  | zero =>
      intro queue d h
      rw [ac3Aux] at h
      split at h <;> simp at h
  | succ f ih =>
      intro queue d h
      rw [ac3Aux] at h ⊢
      exact ac3Drain_false_empty cw (ac3Aux cw f) (fun q d2 => ih q d2) queue d h

/-- Revising a variable whose domain is already empty removes nothing. -/
lemma revise_no_change_of_empty (cw : Crossword) (d : DomainMap) (x y : Var)
    (h : d x = []) : (revise cw d x y).2 = false := by
  cases hov : cw.overlaps x y with
  | none => simp [revise, hov]
  | some kk => simp [revise, hov, h]

lemma ac3Drain_all_empty (cw : Crossword)
    (next : List (Var × Var) → DomainMap → DomainMap × Option Bool) :
    ∀ queue d, (∀ p ∈ queue, d p.1 = []) → ac3Drain cw next queue d = (d, none) := by
  intro queue
  induction queue with
  | nil => intro d _; rfl
  | cons arc rest ih =>
      intro d hq
      rw [ac3Drain]
      rw [if_neg (by simp [revise_no_change_of_empty cw d arc.1 arc.2
        (hq arc (List.mem_cons_self _ _))])]
      exact ih d (fun p hp => hq p (List.mem_cons_of_mem _ hp))

/-- When every variable domain is already empty, `ac3` removes nothing and
falls through with `None` — it does not return `False`. -/
lemma ac3_all_empty (cw : Crossword) (d : DomainMap) (h : ∀ v ∈ cw.vars, d v = []) :
    ac3 cw d = (d, none) := by
  unfold ac3
  rw [ac3Aux]
  exact ac3Drain_all_empty cw _ _ d
    (fun p hp => h p.1 (initArcs_fst_mem cw p (List.mem_reverse.mp hp)))

/-- Claim C10: the return value of `ac3` is `False` only when some
revision emptied a domain (the final store then has an empty domain); it
is never `True` (`some true` here is the provably unreachable fuel
marker, the Python body having no `return True`); with every domain
already empty it falls through and returns `None` with the store
untouched; and `solve` uses only the domain-store component of the
result, never the flag (its unfolding is literally `backtrack` applied to
the first component). -/
theorem ac3_return_value_semantics (cw : Crossword) (d : DomainMap) :
    (ac3 cw d).2 ≠ some true ∧
    ((ac3 cw d).2 = some false → ∃ v, (ac3 cw d).1 v = []) ∧
    ((∀ v ∈ cw.vars, d v = []) → ac3 cw d = (d, none)) ∧
    solve cw = backtrack cw (ac3 cw (enforce_node_consistency cw (initDomains cw))).1
      (cw.vars.length + 1) [] := by
  refine ⟨?_, ?_, ?_, rfl⟩
  · exact ac3Aux_ne_true cw (domSum cw d + 1) (initArcs cw).reverse d
      (fun p hp => initArcs_fst_mem cw p (List.mem_reverse.mp hp)) (Nat.lt_succ_self _)
  · exact ac3Aux_false_empty cw (domSum cw d + 1) (initArcs cw).reverse d
  · exact ac3_all_empty cw d

/-- Witness for `ac3_return_value_semantics` at `cwEx` with all-empty
domains. -/
theorem ac3_return_value_semantics_witness :
    ac3 cwEx (fun _ => []) = ((fun _ => []), none) :=
  (ac3_return_value_semantics cwEx (fun _ => [])).2.2.1 (fun v _ => rfl)

lemma pairwise_of_all {α : Type} {R : α → α → Prop} (h : ∀ a b, R a b) :
    ∀ l : List α, l.Pairwise R
  | [] => List.Pairwise.nil
  | a :: l => List.Pairwise.cons (fun b _ => h a b) (pairwise_of_all h l)

lemma foldl_add_sum (f : Var → Nat) : ∀ (l : List Var) (init : Nat),
    l.foldl (fun acc n => acc + f n) init = init + (l.map f).sum
  | [], init => by simp
  | n :: l, init => by
      rw [List.foldl_cons, foldl_add_sum f l (init + f n), List.map_cons, List.sum_cons]
      omega

lemma lcvKey_eq_sum (cw : Crossword) (d : DomainMap) (x : Var) (nbrs : List Var) (w : String) :
    lcvKey cw d x nbrs w = (nbrs.map (fun n =>
      match cw.overlaps x n with
      | some kk => overlap_count d (charAt w kk.1) kk.2 n
      | none => 0)).sum := by
  unfold lcvKey
  have hbody : (fun (acc : Nat) (n : Var) =>
      match cw.overlaps x n with
      | some kk => acc + overlap_count d (charAt w kk.1) kk.2 n
      | none => acc) = (fun (acc : Nat) (n : Var) => acc + (match cw.overlaps x n with
      | some kk => overlap_count d (charAt w kk.1) kk.2 n
      | none => 0)) := by
    funext acc n
    cases h : cw.overlaps x n with
    | none => simp
    | some kk => simp
  rw [hbody]
  have := foldl_add_sum (fun n =>
      match cw.overlaps x n with
      | some kk => overlap_count d (charAt w kk.1) kk.2 n
      | none => 0) nbrs 0
  simpa using this

lemma overlap_count_eq (d : DomainMap) (c : Char) (spot : Nat) (v : Var) :
    overlap_count d c spot v = ((d v).filter (fun w => !(charAt w spot == c))).length := by
  unfold overlap_count
  have := List.length_eq_length_filter_add (l := d v) (fun w => charAt w spot == c)
  omega

lemma eliminatedTotal_eq_lcvKey (cw : Crossword) (d : DomainMap) (x : Var)
    (a : List (Var × String)) (w : String) :
    eliminatedTotal cw d x a w
      = lcvKey cw d x ((neighbors cw x).filter (fun n => (a.lookup n).isNone)) w := by
  rw [lcvKey_eq_sum]
  unfold eliminatedTotal
  congr 1
  apply List.map_congr_left
  intro n _
  cases h : cw.overlaps x n with
  | none => rfl
  | some kk => simp [overlap_count_eq]

/-- Claim C7: `order_domain_values(var, assignment)` returns exactly the
words of the current domain of `var` (a permutation of it), arranged in
non-decreasing order of the total number of candidate words the choice
would eliminate from the domains of the unassigned neighbors of `var`
(assigned neighbors are filtered out before the count, so they contribute
nothing).  When no unassigned neighbor exists, every total is zero and
the returned domain is trivially in order. -/
theorem order_domain_values_spec (cw : Crossword) (d : DomainMap) (x : Var)
    (a : List (Var × String)) :
    (order_domain_values cw d x a).Perm (d x) ∧
    (order_domain_values cw d x a).Pairwise
      (fun w1 w2 => eliminatedTotal cw d x a w1 ≤ eliminatedTotal cw d x a w2) := by
  unfold order_domain_values
  by_cases hn : ((neighbors cw x).filter (fun n => (a.lookup n).isNone)).isEmpty
  · rw [if_pos hn]
    refine ⟨List.Perm.refl _, pairwise_of_all (fun w1 w2 => ?_) _⟩
    rw [eliminatedTotal_eq_lcvKey, eliminatedTotal_eq_lcvKey,
      List.isEmpty_iff.mp hn]
    exact Nat.le_refl _
  · rw [if_neg hn]
    constructor
    · exact List.perm_insertionSort _ _
    · haveI ht : IsTotal String (fun w1 w2 =>
        lcvKey cw d x ((neighbors cw x).filter (fun n => (a.lookup n).isNone)) w1 ≤
        lcvKey cw d x ((neighbors cw x).filter (fun n => (a.lookup n).isNone)) w2) :=
        ⟨fun w1 w2 => Nat.le_total _ _⟩
      haveI htr : IsTrans String (fun w1 w2 =>
        lcvKey cw d x ((neighbors cw x).filter (fun n => (a.lookup n).isNone)) w1 ≤
        lcvKey cw d x ((neighbors cw x).filter (fun n => (a.lookup n).isNone)) w2) :=
        ⟨fun w1 w2 w3 h12 h23 => Nat.le_trans h12 h23⟩
      have hs := List.sorted_insertionSort (fun w1 w2 =>
        lcvKey cw d x ((neighbors cw x).filter (fun n => (a.lookup n).isNone)) w1 ≤
        lcvKey cw d x ((neighbors cw x).filter (fun n => (a.lookup n).isNone)) w2) (d x)
      exact hs.imp (fun hab => by
        rw [eliminatedTotal_eq_lcvKey, eliminatedTotal_eq_lcvKey]
        exact hab)

/-- Whatever order it picks, `order_domain_values` only returns words of
the current domain. -/
lemma order_domain_values_subset (cw : Crossword) (d : DomainMap) (x : Var)
    (a : List (Var × String)) (w : String) (h : w ∈ order_domain_values cw d x a) :
    w ∈ d x := by
  unfold order_domain_values at h
  by_cases hn : ((neighbors cw x).filter (fun n => (a.lookup n).isNone)).isEmpty
  · rwa [if_pos hn] at h
  · rw [if_neg hn] at h
    exact (List.perm_insertionSort _ _).mem_iff.mp h

/-- Characterization of a successful candidate loop: the result came from
the recursive call on `a` extended with some listed word, the extension
passed the consistency check before the call, and the result passed the
consistency re-check after it. -/
lemma tryWords_eq_some (cw : Crossword)
    (recur : List (Var × String) → Option (List (Var × String)))
    (v : Var) (a : List (Var × String)) :
    ∀ (ws : List String) (r : List (Var × String)),
      tryWords cw recur v a ws = some r →
      ∃ w ∈ ws, consistent cw ((v, w) :: a) = true ∧
        recur ((v, w) :: a) = some r ∧ consistent cw r = true := by
  intro ws
  induction ws with
  | nil => intro r h; simp [tryWords] at h
  | cons w rest ih =>
      intro r h
      rw [tryWords] at h
      split at h
      next h1 =>
        split at h
        next r2 hre =>
          split at h
          next h2 =>
            injection h with h3
            subst h3
            exact ⟨w, List.mem_cons_self _ _, h1, hre, h2⟩
          next h2 =>
            obtain ⟨w2, hw2, hc, hr, hcr⟩ := ih r h
            exact ⟨w2, List.mem_cons_of_mem _ hw2, hc, hr, hcr⟩
        next hre =>
          obtain ⟨w2, hw2, hc, hr, hcr⟩ := ih r h
          exact ⟨w2, List.mem_cons_of_mem _ hw2, hc, hr, hcr⟩
      next h1 =>
        obtain ⟨w2, hw2, hc, hr, hcr⟩ := ih r h
        exact ⟨w2, List.mem_cons_of_mem _ hw2, hc, hr, hcr⟩

/-- Soundness invariant of the search: starting from a consistent
assignment whose words come from the dictionary, with domains inside the
dictionary, any returned assignment is complete, consistent and uses only
dictionary words. -/
lemma backtrack_some (cw : Crossword) (d : DomainMap) :
    ∀ (fuel : Nat) (a r : List (Var × String)),
      backtrack cw d fuel a = some r →
      consistent cw a = true →
      (∀ p ∈ a, p.2 ∈ cw.words) →
      (∀ v w, w ∈ d v → w ∈ cw.words) →
      (assignment_complete cw r = true ∧ consistent cw r = true ∧
        ∀ p ∈ r, p.2 ∈ cw.words) := by
  intro fuel
  induction fuel with
  | zero => intro a r h _ _ _; simp [backtrack] at h
  | succ fuel ih =>
      intro a r h hca hwa hd
      rw [backtrack] at h
      split at h
      next hcomp =>
        injection h with h3
        subst h3
        exact ⟨hcomp, hca, hwa⟩
      next hcomp =>
        split at h
        next => exact absurd h (by simp)
        next v hsel =>
          obtain ⟨w, hw, hc, hr, hcr⟩ := tryWords_eq_some cw _ v a _ r h
          have hwmem : w ∈ cw.words := hd v w (order_domain_values_subset cw d v a w hw)
          exact ih ((v, w) :: a) r hr hc
            (fun p hp => by
              cases hp with
              | head => exact hwmem
              | tail _ hp => exact hwa p hp) hd

/-- Claim C3: if `backtrack`, called as `solve` calls it on the empty
assignment, returns an assignment rather than `None`, then that
assignment is complete (`assignment_complete`, so every crossword
variable is bound), `consistent` holds on it, and every bound word
belongs to `cw.words` — the word list supplied to `__init__`, from which
every domain is seeded and only ever shrunk (hypothesis `hd`). -/
theorem backtrack_sound (cw : Crossword) (d : DomainMap)
    (hd : ∀ v w, w ∈ d v → w ∈ cw.words) (fuel : Nat) (a : List (Var × String))
    (h : backtrack cw d fuel [] = some a) :
    assignment_complete cw a = true ∧ consistent cw a = true ∧
      ∀ p ∈ a, p.2 ∈ cw.words :=
  backtrack_some cw d fuel [] a h rfl (fun p hp => absurd hp (List.not_mem_nil p)) hd

/-- Witness for `backtrack_sound`: on `cwOne` the search run with the
domain store `["ab"]` for every variable returns `[(vA, "ab")]`. -/
theorem backtrack_sound_witness :
    assignment_complete cwOne [(vA, "ab")] = true ∧
    consistent cwOne [(vA, "ab")] = true ∧
    ∀ p ∈ [(vA, "ab")], p.2 ∈ cwOne.words :=
  backtrack_sound cwOne (fun _ => ["ab"]) (fun v w hw => hw) 2 [(vA, "ab")] (by decide)

/-- The selection fold of `select_unassigned_variable` with the empty
assignment: the tracker fields of the state never change, and the fold
ends on `some` variable of the crossword as soon as the accumulator holds
one or any listed variable has fewer than a million candidates. -/
lemma suv_foldl_some (cw : Crossword) (d : DomainMap) :
    ∀ (l : List Var) (m g : Nat) (o : Option Var),
      (∀ v0, o = some v0 → v0 ∈ cw.vars) → (∀ v ∈ l, v ∈ cw.vars) →
      ((∃ v ∈ l, (d v).length < m) ∨ o.isSome = true) →
      ∃ v2 ∈ cw.vars,
        (l.foldl (fun st v =>
          if (List.lookup v ([] : List (Var × String))).isNone then
            if (d v).length < st.1 ∨ ((d v).length = st.1 ∧ (neighbors cw v).length > st.2.1) then
              (st.1, st.2.1, some v)
            else st
          else st) (m, g, o)).2.2 = some v2 := by
  intro l
  induction l with
  | nil =>
      intro m g o ho _ htr
      rcases htr with ⟨v, hv, _⟩ | hsome
      · exact absurd hv (List.not_mem_nil v)
      · cases o with
        | none => simp at hsome
        | some v0 => exact ⟨v0, ho v0 rfl, rfl⟩
  | cons b l ih =>
      intro m g o ho hsub htr
      rw [List.foldl_cons]
      simp only [List.lookup_nil, Option.isNone_none, if_true]
      by_cases hc : (d b).length < m ∨ ((d b).length = m ∧ (neighbors cw b).length > g)
      · rw [if_pos hc]
        exact ih m g (some b) (fun v0 h => by injection h with h; exact h ▸ hsub b (List.mem_cons_self _ _))
          (fun v hv => hsub v (List.mem_cons_of_mem _ hv)) (Or.inr rfl)
      · rw [if_neg hc]
        apply ih m g o ho (fun v hv => hsub v (List.mem_cons_of_mem _ hv))
        rcases htr with ⟨v, hv, hlen⟩ | hsome
        · cases hv with
          | head => exact absurd (Or.inl hlen) hc
          | tail _ hv => exact Or.inl ⟨v, hv, hlen⟩
        · exact Or.inr hsome

/-- With the empty assignment and any variable whose domain is smaller
than the `1e6` sentinel, `select_unassigned_variable` returns some
crossword variable. -/
lemma suv_empty_some (cw : Crossword) (d : DomainMap) (b : Var)
    (hb : b ∈ cw.vars) (hlen : (d b).length < 1000000) :
    ∃ v ∈ cw.vars, select_unassigned_variable cw d [] = some v := by
  unfold select_unassigned_variable
  exact suv_foldl_some cw d cw.vars 1000000 0 none (fun v0 h => by cases h)
    (fun v hv => hv) (Or.inl ⟨b, hb, hlen⟩)

/-- The empty assignment is not complete when a variable exists. -/
lemma assignment_complete_nil_false (cw : Crossword) (h : cw.vars ≠ []) :
    assignment_complete cw [] = false := by
  unfold assignment_complete
  cases hl : cw.vars with
  | nil => exact absurd hl h
  | cons b l => simp [List.lookup_nil]

/-- Ordering an empty domain yields the empty candidate list. -/
lemma order_domain_values_of_empty (cw : Crossword) (d : DomainMap) (x : Var)
    (a : List (Var × String)) (h : d x = []) :
    order_domain_values cw d x a = [] := by
  unfold order_domain_values
  split
  · exact h
  · rw [h]
    rfl

/-- When every dictionary word has the wrong length for every variable,
node consistency on the seeded domains empties every domain. -/
lemma enforce_empty_of_wrong_lengths (cw : Crossword)
    (h : ∀ v ∈ cw.vars, ∀ w ∈ cw.words, w.length ≠ v.length) :
    ∀ v ∈ cw.vars, enforce_node_consistency cw (initDomains cw) v = [] := by
  intro v hv
  unfold enforce_node_consistency initDomains
  rw [if_pos hv, List.filter_eq_nil_iff]
  intro w hw
  simp [h v hv w hw]

/-- Claim C8: unsatisfiability is a returned value, not an exception, and
differs from the trivial empty puzzle.  For a crossword `cwa` with no
variables, `solve` returns the empty assignment (`some []`, already
complete).  For a crossword `cwb` with at least one variable whose
dictionary has only wrong-length words for every variable, node
consistency empties every domain, `ac3` falls through with the store
unchanged, `backtrack` finds no candidate for the selected variable, and
`solve` returns `none` — every function in the pipeline is total here, no
step raises. -/
theorem solve_unsat_vs_empty_puzzle (cwa cwb : Crossword)
    (h0 : cwa.vars = [])
    (h1 : cwb.vars ≠ [])
    (h2 : ∀ v ∈ cwb.vars, ∀ w ∈ cwb.words, w.length ≠ v.length) :
    solve cwa = some [] ∧ solve cwb = none := by
  constructor
  · have hc : assignment_complete cwa [] = true := by
      unfold assignment_complete
      rw [h0]
      rfl
    unfold solve
    rw [backtrack, if_pos hc]
  · have hemp : ∀ v ∈ cwb.vars,
        enforce_node_consistency cwb (initDomains cwb) v = [] :=
      enforce_empty_of_wrong_lengths cwb h2
    have hac : ac3 cwb (enforce_node_consistency cwb (initDomains cwb))
        = (enforce_node_consistency cwb (initDomains cwb), none) :=
      ac3_all_empty cwb _ hemp
    obtain ⟨b, hb⟩ : ∃ b, b ∈ cwb.vars := by
      cases hl : cwb.vars with
      | nil => exact absurd hl h1
      | cons b l => exact ⟨b, List.mem_cons_self _ _⟩
    obtain ⟨v, hv, hsel⟩ := suv_empty_some cwb
      (enforce_node_consistency cwb (initDomains cwb)) b hb
      (by rw [hemp b hb]; norm_num)
    unfold solve
    rw [hac]
    rw [backtrack]
    rw [if_neg (by simp [assignment_complete_nil_false cwb h1])]
    simp only [hsel]
    rw [order_domain_values_of_empty cwb _ v [] (hemp v hv)]
    rfl

/-- Witness for `solve_unsat_vs_empty_puzzle` at `cwZero` (no variables)
and `cwWrong` (one length-2 slot, dictionary `["abc"]`). -/
theorem solve_unsat_vs_empty_puzzle_witness :
    solve cwZero = some [] ∧ solve cwWrong = none :=
  solve_unsat_vs_empty_puzzle cwZero cwWrong rfl (by decide) (by decide)
